import Mathlib

/-!
Verification of the mmm-trading-system order/event core against its
natural-language specification.

The Python source is shallowly embedded: mutable database tables become
explicit state records threaded through the functions, Decimal becomes ℚ,
uuid ids become sequentially assigned Nat ids, and fallible code returns
Except paired with the post-state (a Python raise does not roll back
earlier writes, so every function returns its state even on error).

Helpers that the source calls but never defines anywhere in the repository
(OrderController._insert_order_into_db, EventManager.publish_event,
LiveOrderExecutor._get_order_by_id, LiveOrderExecutor._update_order_status)
are modelled from the spec; each such definition carries a doc comment
saying so.
-/

namespace OrderCtl

/-- A row of the orders table as assembled by OrderController.create_order:
the main_order_data / stop_loss_order_data / take_profit_order_data
dictionaries from order_controller.py, plus the id assigned at insertion. -/
structure OrderRow where
  order_id : Nat
  portfolio_id : Option Nat
  event_manager_id : String
  signal_id : String
  order_type : String
  order_category : String
  order_side : String
  target_price : ℚ
  order_status : String
  symbol : String
  exchange : String
  base_currency : String
  quote_currency : String
  initial_quantity : ℚ
  executed_quantity : ℚ
  total_fee : ℚ
  parent_order_id : Option Nat
deriving Repr, DecidableEq

/-- An event as published via publish_event: the event type together with
the payload fields used at every call site, namely order_id and
order_status. -/
structure EventRow where
  event_type : String
  payload_order_id : Nat
  payload_order_status : String
deriving Repr, DecidableEq

/-- The persistent state touched by OrderController: the orders and events
tables plus the fresh-id supply (standing in for uuid4). -/
structure DB where
  orders : List OrderRow
  events : List EventRow
  next_id : Nat
deriving Repr, DecidableEq

/-- Modelled from the spec: OrderController._insert_order_into_db is called
by create_order but defined nowhere in the repository.  Per spec section 6
the OrderRepository contract is add(order) -> id: the row is appended and a
fresh id is returned. -/
def insert_order_into_db (mk : Nat → OrderRow) (db : DB) : Nat × DB :=
  (db.next_id,
   { db with orders := db.orders ++ [mk db.next_id], next_id := db.next_id + 1 })

/-- Modelled from the spec: EventManager.publish_event is called by
OrderController (and LiveOrderExecutor) but defined nowhere in the
repository.  Per spec section 4.2, publishing persists exactly one event
whose payload references the order id. -/
def publish_event (event_type : String) (payload_order_id : Nat)
    (payload_order_status : String) (db : DB) : DB :=
  { db with events :=
      db.events ++ [⟨event_type, payload_order_id, payload_order_status⟩] }

/-- The keyword arguments of OrderController.create_order. -/
structure CreateOrderInput where
  portfolio_id : Option Nat
  event_manager_id : String
  signal_id : String
  order_type : String
  order_category : String
  order_side : String
  target_price : ℚ
  order_status : String
  symbol : String
  exchange : String
  base_currency : String
  quote_currency : String
  initial_quantity : ℚ
  stop_loss : Option ℚ
  take_profit : Option ℚ
deriving Repr, DecidableEq

/-- The check `x is not None and x <= 0` used for stop_loss / take_profit
in create_order's validation block. -/
def given_nonpos : Option ℚ → Bool
  | some x => decide (x ≤ 0)
  | none => false

/-- The main_order_data dictionary built in create_order (created_at and
friends are DB-managed and omitted; a root order has no parent link). -/
def rootRow (inp : CreateOrderInput) (oid : Nat) : OrderRow :=
  { order_id := oid
    portfolio_id := inp.portfolio_id
    event_manager_id := inp.event_manager_id
    signal_id := inp.signal_id
    order_type := inp.order_type
    order_category := inp.order_category
    order_side := inp.order_side
    target_price := inp.target_price
    order_status := inp.order_status
    symbol := inp.symbol
    exchange := inp.exchange
    base_currency := inp.base_currency
    quote_currency := inp.quote_currency
    initial_quantity := inp.initial_quantity
    executed_quantity := 0
    total_fee := 0
    parent_order_id := none }

/-- The side inversion used by both derived-order builders:
the Python expression is  "sell" if parent side == "buy" else "buy". -/
def invertSide (s : String) : String :=
  if s = "buy" then "sell" else "buy"

/-- The stop_loss_order_data dictionary built in
OrderController._create_stop_loss_order. -/
def stopLossRow (parent : CreateOrderInput) (parent_order_id : Nat)
    (stop_loss_price : ℚ) (oid : Nat) : OrderRow :=
  { order_id := oid
    portfolio_id := parent.portfolio_id
    event_manager_id := parent.event_manager_id
    signal_id := parent.signal_id
    order_type := "stop_loss"
    order_category := parent.order_category
    order_side := invertSide parent.order_side
    target_price := stop_loss_price
    order_status := parent.order_status
    symbol := parent.symbol
    exchange := parent.exchange
    base_currency := parent.base_currency
    quote_currency := parent.quote_currency
    initial_quantity := parent.initial_quantity
    executed_quantity := 0
    total_fee := 0
    parent_order_id := some parent_order_id }

/-- The take_profit_order_data dictionary built in
OrderController._create_take_profit_order. -/
def takeProfitRow (parent : CreateOrderInput) (parent_order_id : Nat)
    (take_profit_price : ℚ) (oid : Nat) : OrderRow :=
  { stopLossRow parent parent_order_id take_profit_price oid with
      order_type := "take_profit" }

/-- OrderController._create_stop_loss_order: builds the derived row with
inverted side, inserts it, and publishes its placement event. -/
def create_stop_loss_order (parent_order_id : Nat) (parent : CreateOrderInput)
    (stop_loss_price : ℚ) (db : DB) : Nat × DB :=
  let (oid, db1) :=
    insert_order_into_db (stopLossRow parent parent_order_id stop_loss_price) db
  (oid, publish_event "OrderAwaitingExecution" oid parent.order_status db1)

/-- OrderController._create_take_profit_order: builds the derived row with
inverted side, inserts it, and publishes its placement event. -/
def create_take_profit_order (parent_order_id : Nat) (parent : CreateOrderInput)
    (take_profit_price : ℚ) (db : DB) : Nat × DB :=
  let (oid, db1) :=
    insert_order_into_db (takeProfitRow parent parent_order_id take_profit_price) db
  (oid, publish_event "OrderAwaitingExecution" oid parent.order_status db1)

/-- The Basic validation block at the top of create_order (order_controller.py
lines 92-111): the first failing check raises ValueError with its message;
none means validation passed.  No write happens in this block. -/
def validate_create_order (inp : CreateOrderInput) : Option String :=
  if inp.portfolio_id = none then
    some "portfolio_id cannot be None."
  else if inp.event_manager_id = "" then
    some "event_manager_id must be provided."
  else if inp.symbol = "" then
    some "symbol must be provided."
  else if inp.exchange = "" then
    some "exchange must be provided."
  else if inp.order_side ≠ "buy" ∧ inp.order_side ≠ "sell" then
    some "order_side must be buy or sell."
  else if inp.target_price ≤ 0 then
    some "target_price must be greater than 0."
  else if inp.initial_quantity ≤ 0 then
    some "initial_quantity must be greater than 0."
  else if given_nonpos inp.stop_loss then
    some "stop_loss must be greater than 0 if provided."
  else if given_nonpos inp.take_profit then
    some "take_profit must be greater than 0 if provided."
  else
    none

/-- OrderController.create_order, order_controller.py lines 33-170.
Validation runs before any write; then the root order is inserted and its
placement event published; then, if given, the stop-loss and take-profit
orders follow, each with its own placement event.  The surrounding
try/except logs and re-raises, which leaves the semantics unchanged. -/
def create_order (inp : CreateOrderInput) (db : DB) :
    Except String (List Nat) × DB :=
  match validate_create_order inp with
  | some msg => (.error msg, db)
  | none =>
    let (main_order_id, db1) := insert_order_into_db (rootRow inp) db
    let db2 := publish_event "OrderAwaitingExecution" main_order_id inp.order_status db1
    let (ids3, db3) :=
      match inp.stop_loss with
      | none => ([main_order_id], db2)
      | some sl =>
        let (slid, dbx) := create_stop_loss_order main_order_id inp sl db2
        ([main_order_id, slid], dbx)
    match inp.take_profit with
    | none => (.ok ids3, db3)
    | some tp =>
      let (tpid, db4) := create_take_profit_order main_order_id inp tp db3
      (.ok (ids3 ++ [tpid]), db4)

/-- Concrete instance for C1: the inputs of the repository's own
test_create_order_with_stop_loss_and_take_profit, run on an empty database. -/
def c1Input : CreateOrderInput :=
  { portfolio_id := some 1
    event_manager_id := "em-1"
    signal_id := "sig-1"
    order_type := "market"
    order_category := "spot"
    order_side := "buy"
    target_price := 50000
    order_status := "pending"
    symbol := "BTCUSDT"
    exchange := "bybit"
    base_currency := "BTC"
    quote_currency := "USDT"
    initial_quantity := 1 / 1000
    stop_loss := some 48000
    take_profit := some 52000 }

/-- An empty database. -/
def emptyDB : DB := ⟨[], [], 0⟩

/-- Concrete invalid input for C5: quantity -1. -/
def c5Input : CreateOrderInput := { c1Input with initial_quantity := -1 }

end OrderCtl

namespace EventQ

/-- A row of the events table (db/queries/events.py): id, owning manager,
type, integer priority, payload, creation time, and the nullable
processed-at timestamp. -/
structure EventRec where
  event_id : Nat
  event_manager_id : String
  event_type : String
  priority : Int
  payload : String
  created_at : Nat
  executed_at : Option Nat
deriving Repr, DecidableEq

/-- The events table plus the id supply and a monotone clock standing in
for now(): consecutive inserts receive strictly increasing timestamps. -/
structure EventsDB where
  rows : List EventRec
  next_id : Nat
  now : Nat
deriving Repr, DecidableEq

/-- An empty events database. -/
def mkEventsDB : EventsDB := ⟨[], 0, 0⟩

/-- add_event (db/queries/events.py lines 5-24): inserts one row with a
fresh uuid (here the next id) and created_at = now(), executed_at NULL. -/
def add_event (event_manager_id event_type : String) (priority : Int)
    (payload : String) (db : EventsDB) : Nat × EventsDB :=
  (db.next_id,
   { rows := db.rows ++
       [⟨db.next_id, event_manager_id, event_type, priority, payload, db.now, none⟩],
     next_id := db.next_id + 1,
     now := db.now + 1 })

/-- The WHERE clause of get_next_event: same manager and executed_at IS NULL. -/
def isPending (event_manager_id : String) (e : EventRec) : Bool :=
  e.event_manager_id == event_manager_id && e.executed_at == none

/-- The rows satisfying get_next_event's WHERE clause, in table order. -/
def pendingFor (event_manager_id : String) (rows : List EventRec) : List EventRec :=
  rows.filter (isPending event_manager_id)

/-- Strict precedence induced by ORDER BY priority DESC, created_at ASC:
a comes strictly before b. -/
def beats (a b : EventRec) : Bool :=
  b.priority < a.priority || (a.priority == b.priority && a.created_at < b.created_at)

/-- First row of the ORDER BY priority DESC, created_at ASC result (the
LIMIT 1 row): a minimal element under beats, the earliest row of the table
among full ties. -/
def pickBest : List EventRec → Option EventRec
  | [] => none
  | e :: rest =>
    match pickBest rest with
    | none => some e
    | some b => if beats b e then some b else some e

/-- get_next_event (db/queries/events.py lines 37-52): the pending event of
this manager with the highest priority, ties resolved by earliest
created_at. -/
def get_next_event (event_manager_id : String) (rows : List EventRec) :
    Option EventRec :=
  pickBest (pendingFor event_manager_id rows)

/-- mark_event_as_processed (db/queries/events.py lines 55-66): sets
executed_at = now() on the row with the given id. -/
def mark_event_as_processed (event_id : Nat) (t : Nat) (rows : List EventRec) :
    List EventRec :=
  rows.map fun e =>
    if e.event_id == event_id then { e with executed_at := some t } else e

/-- The dispatch order of the EventManager.run loop: on each iteration fetch
the next event via get_next_event and, on successful handling, mark it
processed; the loop polls until no pending event remains (fuel bounds the
number of iterations). -/
def dispatchSeq (event_manager_id : String) (rows : List EventRec) :
    Nat → List EventRec
  | 0 => []
  | fuel + 1 =>
    match get_next_event event_manager_id rows with
    | none => []
    | some e =>
      e :: dispatchSeq event_manager_id
        (mark_event_as_processed e.event_id 0 rows) fuel

/-- Written from the spec (refinement side): sort by priority descending,
ties by created_at ascending.  This is the comparison of that sort. -/
def specLE (a b : EventRec) : Bool :=
  b.priority < a.priority || (a.priority == b.priority && a.created_at ≤ b.created_at)

/-- Written from the spec (refinement side): stable insertion into a list
sorted by specLE. -/
def insertSorted (e : EventRec) : List EventRec → List EventRec
  | [] => [e]
  | x :: xs => if specLE e x then e :: x :: xs else x :: insertSorted e xs

/-- Written from the spec (refinement side): stable insertion sort by
priority descending, ties by created_at ascending. -/
def sortEvents : List EventRec → List EventRec
  | [] => []
  | x :: xs => insertSorted x (sortEvents xs)

/-- Applies a list of add_event calls (manager, type, priority, payload)
in order. -/
def addAll (adds : List (String × String × Int × String)) (db : EventsDB) :
    EventsDB :=
  adds.foldl (fun d a => (add_event a.1 a.2.1 a.2.2.1 a.2.2.2 d).2) db

/-- Well-formedness maintained by add_event: distinct ids (uuids), distinct
timestamps (strictly monotone now()), both bounded by the counters. -/
def EventsDBInv (db : EventsDB) : Prop :=
  (db.rows.map EventRec.event_id).Nodup
  ∧ (db.rows.map EventRec.created_at).Nodup
  ∧ ∀ e ∈ db.rows, e.event_id < db.next_id ∧ e.created_at < db.now

/-- The enqueue sequence of the spec's own example: HIGH, MEDIUM, MEDIUM,
LOW, in that creation order, all owned by manager m. -/
def c3Adds : List (String × String × Int × String) :=
  [("m", "order", 3, "high"), ("m", "signal", 2, "medium1"),
   ("m", "signal", 2, "medium2"), ("m", "market", 1, "low")]

end EventQ

namespace Exec

/-- The order fields LiveOrderExecutor reads and writes: id, the venue key
looked up in self.exchanges, and the status. -/
structure ExecOrder where
  order_id : Nat
  exchange : String
  order_status : String
deriving Repr, DecidableEq

/-- The exceptions execute_order can raise: ValueError for an unknown order
or unavailable exchange, Exception for a falsy place_order result. -/
inductive ExecErr
  | orderNotFound (order_id : Nat)
  | exchangeUnavailable (name : String)
  | placementFailed
deriving Repr, DecidableEq

/-- The state LiveOrderExecutor touches: the order repository, the
_executing_orders dict (insertion-ordered key/value list), the events
published via publish_event, and the log of gateway place_order calls. -/
structure EngineState where
  repo : List ExecOrder
  executing_orders : List (Nat × ExecOrder)
  events : List (String × Nat × String)
  submissions : List Nat
deriving Repr, DecidableEq

/-- Modelled from the spec: LiveOrderExecutor._get_order_by_id is called but
defined nowhere in the repository; per spec section 6 the OrderRepository
contract is get(id) -> order. -/
def get_order_by_id (order_id : Nat) (repo : List ExecOrder) : Option ExecOrder :=
  repo.find? (fun o => o.order_id == order_id)

/-- Modelled from the spec: LiveOrderExecutor._update_order_status is called
but defined nowhere in the repository; per spec section 6 the contract is
update_status(id, status). -/
def update_order_status (order_id : Nat) (status : String)
    (repo : List ExecOrder) : List ExecOrder :=
  repo.map fun o =>
    if o.order_id == order_id then { o with order_status := status } else o

/-- Python dict assignment d[k] = v on an insertion-ordered dict: replace in
place if the key exists, else append. -/
def dictInsert (d : List (Nat × ExecOrder)) (k : Nat) (v : ExecOrder) :
    List (Nat × ExecOrder) :=
  if (d.find? (fun p => p.1 == k)).isSome then
    d.map fun p => if p.1 == k then (k, v) else p
  else d ++ [(k, v)]

/-- Python dict read d.get(k) / d[k]. -/
def dictLookup (d : List (Nat × ExecOrder)) (k : Nat) : Option ExecOrder :=
  (d.find? (fun p => p.1 == k)).map Prod.snd

/-- Python dict d.pop(k, None). -/
def dictPop (d : List (Nat × ExecOrder)) (k : Nat) : List (Nat × ExecOrder) :=
  d.filter fun p => !(p.1 == k)

/-- LiveOrderExecutor.__init__ (live_order_executor.py lines 25-44): stores
the collaborators, sets _executing_orders to the empty dict and starts the
monitor thread.  No repository query happens during construction. -/
def liveOrderExecutorInit (repo : List ExecOrder) : EngineState :=
  { repo := repo, executing_orders := [], events := [], submissions := [] }

/-- get_executing_orders (db/queries/orders.py lines 67-74): ids of the
orders whose status is executing.  No caller of this query exists anywhere
in the repository. -/
def get_executing_orders (repo : List ExecOrder) : List Nat :=
  (repo.filter fun o => o.order_status == "executing").map ExecOrder.order_id

/-- LiveOrderExecutor.execute_order (live_order_executor.py lines 46-81).
exchanges are the keys of self.exchanges; placeOk gives the truthiness of
exchange.place_order per order id; every place_order call is logged in
submissions, also when it reports failure.  The body holds self._lock, so
each call is one atomic state transition.  The except-block logs and
re-raises, leaving semantics unchanged.  Note the body performs no check of
the order's current status. -/
def execute_order (exchanges : List String) (placeOk : Nat → Bool)
    (order_id : Nat) (s : EngineState) : Except ExecErr Unit × EngineState :=
  match get_order_by_id order_id s.repo with
  | none => (.error (.orderNotFound order_id), s)
  | some order =>
    if exchanges.contains order.exchange then
      let s1 := { s with submissions := s.submissions ++ [order_id] }
      if placeOk order_id then
        (.ok (),
         { s1 with
             repo := update_order_status order_id "executing" s1.repo,
             executing_orders := dictInsert s1.executing_orders order_id
               { order with order_status := "executing" },
             events := s1.events ++ [("OrderExecuting", order_id, "executing")] })
      else (.error .placementFailed, s1)
    else (.error (.exchangeUnavailable order.exchange), s)

/-- The condition under which the monitor loop treats a snapshot entry as
executed: its exchange key is present and check_order_status reports
executed. -/
def executedHere (exchanges : List String) (statusOf : Nat → Option String)
    (p : Nat × ExecOrder) : Bool :=
  exchanges.contains p.2.exchange && statusOf p.1 == some "executed"

/-- The for-loop body of _monitor_executing_orders (lines 91-108) over the
snapshot list(self._executing_orders.items()): statusOf models
exchange.check_order_status (none = the call raised; the exception is
caught and logged and the entry skipped).  Missing exchange keys are logged
and skipped.  Returns the threaded state and the executed_orders list in
iteration order. -/
def monitorPass (exchanges : List String) (statusOf : Nat → Option String) :
    List (Nat × ExecOrder) → EngineState → EngineState × List Nat
  | [], s => (s, [])
  | (oid, order) :: rest, s =>
    if exchanges.contains order.exchange then
      match statusOf oid with
      | none => monitorPass exchanges statusOf rest s
      | some st =>
        if st == "executed" then
          let s1 := { s with
              repo := update_order_status oid "executed" s.repo,
              executing_orders := dictInsert s.executing_orders oid
                { order with order_status := "executed" },
              events := s.events ++ [("OrderExecuted", oid, "executed")] }
          let r := monitorPass exchanges statusOf rest s1
          (r.1, oid :: r.2)
        else monitorPass exchanges statusOf rest s
    else monitorPass exchanges statusOf rest s

/-- One iteration of the while loop of _monitor_executing_orders (lines
87-111): run the pass over the snapshot, then pop every executed id from
the dict. -/
def monitorStep (exchanges : List String) (statusOf : Nat → Option String)
    (s : EngineState) : EngineState :=
  let r := monitorPass exchanges statusOf s.executing_orders s
  { r.1 with executing_orders := r.2.foldl dictPop r.1.executing_orders }

/-- n iterations of the monitor loop; the gateway report may change between
iterations (statusAt k is iteration k's report). -/
def monitorIters (exchanges : List String)
    (statusAt : Nat → Nat → Option String) :
    Nat → EngineState → EngineState
  | 0, s => s
  | n + 1, s =>
    monitorIters exchanges (fun k => statusAt (k + 1)) n
      (monitorStep exchanges (statusAt 0) s)

/-- Concrete scenario for C2: one pending order (id 7) on bybit, the
exchange configured, the gateway accepting every submission. -/
def c2Repo : List ExecOrder := [⟨7, "bybit", "pending"⟩]

/-- The freshly constructed executor over that repository. -/
def c2State0 : EngineState := liveOrderExecutorInit c2Repo

/-- The state after the first execute_order call for id 7. -/
def c2State1 : EngineState :=
  (execute_order ["bybit"] (fun _ => true) 7 c2State0).2

/-- Concrete monitored order for C10. -/
def c10Order : ExecOrder := ⟨7, "bybit", "executing"⟩

/-- Concrete engine state for C10: order 7 is being monitored. -/
def c10State : EngineState :=
  { repo := [c10Order], executing_orders := [(7, c10Order)],
    events := [], submissions := [] }

end Exec

namespace EMLoop

/-- Observable actions of the EventManager.run loop. -/
inductive LoopAction
  | slept
  | handleStart (event_id : Nat)
  | handleEnd (event_id : Nat)
  | setInactive
deriving Repr, DecidableEq

/-- The EventManager fields touched by run/stop: the running flag and the
persisted manager status. -/
structure EMState where
  running : Bool
  status : String
deriving Repr, DecidableEq

/-- EventManager.stop (event_manager.py lines 125-133): sets running to
False and nothing else — it neither touches the persisted status nor
interrupts the loop thread. -/
def stopEM (s : EMState) : EMState :=
  { s with running := false }

/-- The run loop (event_manager.py lines 104-123) as a trace of actions.
obs i is the value of self.running read at the top of iteration i (stop()
flips it asynchronously between iterations); getEvent i is what
_get_next_event returns at iteration i.  A handler runs to completion
within its iteration — the flag is consulted only at the loop head — and
update_event_manager_status(.., inactive) runs only after the while loop
exits.  fuel bounds the observed iterations; when it runs out the loop is
still live and no setInactive is emitted. -/
def runLoop (obs : Nat → Bool) (getEvent : Nat → Option Nat) :
    Nat → Nat → List LoopAction
  | 0, _ => []
  | fuel + 1, i =>
    if obs i then
      match getEvent i with
      | none => .slept :: runLoop obs getEvent fuel (i + 1)
      | some eid =>
          .handleStart eid :: .handleEnd eid :: runLoop obs getEvent fuel (i + 1)
    else [.setInactive]

end EMLoop

namespace EventQ

/-- EventManager._handle_event (event_manager.py lines 62-91) at the
database level: ok says whether the handler body reached
mark_event_as_processed (false = some step before it raised).  The
surrounding try/except catches every exception, so the function always
returns: on failure the table is untouched and the event's executed_at
stays NULL. -/
def handle_event (ok : Bool) (e : EventRec) (t : Nat) (rows : List EventRec) :
    List EventRec :=
  if ok then mark_event_as_processed e.event_id t rows else rows

/-- The run loop at the database level, recording the handled event ids in
order; handlerOk k eid says whether handling event eid at iteration k
reaches mark_event_as_processed.  fuel bounds the iterations; the trace is
truncated when no pending event remains (the code then sleeps and
re-polls). -/
def dispatchLoopH (handlerOk : Nat → Nat → Bool) (mgr : String) :
    Nat → List EventRec → Nat → List Nat
  | _, _, 0 => []
  | k, rows, fuel + 1 =>
    match get_next_event mgr rows with
    | none => []
    | some e =>
      e.event_id :: dispatchLoopH handlerOk mgr (k + 1)
        (handle_event (handlerOk k e.event_id) e 0 rows) fuel

/-- A one-event table whose handler will fail: one pending
OrderPlacementEvent owned by manager m. -/
def c8Rows : List EventRec :=
  [⟨0, "m", "OrderPlacementEvent", 1, "payload", 0, none⟩]

end EventQ

namespace EMFactory

/-- A row of the event_managers table (db/queries/event_managers.py). -/
structure EMRow where
  event_manager_id : String
  mode : String
  status : String
deriving Repr, DecidableEq

/-- The Python exception surfaced inside create_new. -/
inductive PyExc
  | typeError (msg : String)
deriving Repr, DecidableEq

/-- Body of add_event_manager (db/queries/event_managers.py lines 3-15):
inserts one row; a Python function without a return statement returns
None. -/
def add_event_manager_body (event_manager_id mode status : String)
    (tbl : List EMRow) : List EMRow × Option String :=
  (tbl ++ [⟨event_manager_id, mode, status⟩], none)

/-- Python positional-call semantics for a function with three required
parameters: unless exactly three positional arguments are supplied the call
raises TypeError before the body runs. -/
def callWith3
    (f : String → String → String → List EMRow → List EMRow × Option String)
    (args : List String) :
    Except PyExc (List EMRow → List EMRow × Option String) :=
  match args with
  | [a, b, c] => .ok (f a b c)
  | _ => .error (.typeError "missing required positional argument")

/-- The object create_new would build on success, carrying the
event_manager_id value that add_event_manager returned. -/
structure CreatedEM where
  event_manager_id : Option String
deriving Repr, DecidableEq

/-- EventManager.create_new (event_manager.py lines 136-149): calls
add_event_manager(mode, "inactive") — two positional arguments for the
three-parameter function — and wraps the result in an EventManager; any
exception is caught, logged, and None is returned. -/
def create_new (mode : String) (tbl : List EMRow) :
    Option CreatedEM × List EMRow :=
  match callWith3 add_event_manager_body [mode, "inactive"] with
  | .error _ => (none, tbl)
  | .ok run =>
    let (tbl1, em_id) := run tbl
    (some ⟨em_id⟩, tbl1)

end EMFactory


namespace OrderCtl

/-- C1: with valid inputs and both stop_loss and take_profit given,
create_order persists exactly 3 orders and 3 placement events, the two
derived orders carry parent_order_id = root id and the inverse of the
root's side, and the returned list is [root_id, stop_loss_id,
take_profit_id] in creation order. -/
theorem c1_create_order_three_orders
    (inp : CreateOrderInput) (db : DB) (sl tp : ℚ)
    (hsl : inp.stop_loss = some sl) (htp : inp.take_profit = some tp)
    (hpf : inp.portfolio_id ≠ none) (hem : inp.event_manager_id ≠ "")
    (hsym : inp.symbol ≠ "") (hex : inp.exchange ≠ "")
    (hside : inp.order_side = "buy" ∨ inp.order_side = "sell")
    (hp : 0 < inp.target_price) (hq : 0 < inp.initial_quantity)
    (hsl0 : 0 < sl) (htp0 : 0 < tp) :
    create_order inp db =
      (.ok [db.next_id, db.next_id + 1, db.next_id + 2],
       { orders := db.orders ++
           [rootRow inp db.next_id,
            stopLossRow inp db.next_id sl (db.next_id + 1),
            takeProfitRow inp db.next_id tp (db.next_id + 2)],
         events := db.events ++
           [⟨"OrderAwaitingExecution", db.next_id, inp.order_status⟩,
            ⟨"OrderAwaitingExecution", db.next_id + 1, inp.order_status⟩,
            ⟨"OrderAwaitingExecution", db.next_id + 2, inp.order_status⟩],
         next_id := db.next_id + 3 })
    ∧ (rootRow inp db.next_id).parent_order_id = none
    ∧ (stopLossRow inp db.next_id sl (db.next_id + 1)).parent_order_id
        = some (rootRow inp db.next_id).order_id
    ∧ (takeProfitRow inp db.next_id tp (db.next_id + 2)).parent_order_id
        = some (rootRow inp db.next_id).order_id
    ∧ ((rootRow inp db.next_id).order_side = "buy" →
        (stopLossRow inp db.next_id sl (db.next_id + 1)).order_side = "sell"
        ∧ (takeProfitRow inp db.next_id tp (db.next_id + 2)).order_side = "sell")
    ∧ ((rootRow inp db.next_id).order_side = "sell" →
        (stopLossRow inp db.next_id sl (db.next_id + 1)).order_side = "buy"
        ∧ (takeProfitRow inp db.next_id tp (db.next_id + 2)).order_side = "buy") := by
  have hside' : ¬ (inp.order_side ≠ "buy" ∧ inp.order_side ≠ "sell") := by
    rcases hside with h | h <;> simp [h]
  have hslb : given_nonpos (some sl) = false := by
    simp [given_nonpos]; exact hsl0
  have htpb : given_nonpos (some tp) = false := by
    simp [given_nonpos]; exact htp0
  have hval : validate_create_order inp = none := by
    unfold validate_create_order
    rw [if_neg hpf, if_neg hem, if_neg hsym, if_neg hex, if_neg hside',
      if_neg (not_le.mpr hp), if_neg (not_le.mpr hq)]
    simp only [hsl, htp, hslb, htpb, Bool.false_eq_true, if_false]
  refine ⟨?_, rfl, rfl, rfl, ?_, ?_⟩
  · simp only [create_order, hval, hsl, htp,
      insert_order_into_db, publish_event, create_stop_loss_order,
      create_take_profit_order]
    norm_num [List.append_assoc]
  · intro hbuy
    simp [stopLossRow, takeProfitRow, rootRow, invertSide] at hbuy ⊢
    simp [hbuy]
  · intro hsell
    simp [stopLossRow, takeProfitRow, rootRow, invertSide] at hsell ⊢
    simp [hsell]

/-- Witness for C1: the theorem applied at the concrete test input. -/
theorem c1_create_order_three_orders_witness :
    create_order c1Input emptyDB =
      (.ok [emptyDB.next_id, emptyDB.next_id + 1, emptyDB.next_id + 2],
       { orders := emptyDB.orders ++
           [rootRow c1Input emptyDB.next_id,
            stopLossRow c1Input emptyDB.next_id 48000 (emptyDB.next_id + 1),
            takeProfitRow c1Input emptyDB.next_id 52000 (emptyDB.next_id + 2)],
         events := emptyDB.events ++
           [⟨"OrderAwaitingExecution", emptyDB.next_id, c1Input.order_status⟩,
            ⟨"OrderAwaitingExecution", emptyDB.next_id + 1, c1Input.order_status⟩,
            ⟨"OrderAwaitingExecution", emptyDB.next_id + 2, c1Input.order_status⟩],
         next_id := emptyDB.next_id + 3 })
    ∧ (rootRow c1Input emptyDB.next_id).parent_order_id = none
    ∧ (stopLossRow c1Input emptyDB.next_id 48000 (emptyDB.next_id + 1)).parent_order_id
        = some (rootRow c1Input emptyDB.next_id).order_id
    ∧ (takeProfitRow c1Input emptyDB.next_id 52000 (emptyDB.next_id + 2)).parent_order_id
        = some (rootRow c1Input emptyDB.next_id).order_id
    ∧ ((rootRow c1Input emptyDB.next_id).order_side = "buy" →
        (stopLossRow c1Input emptyDB.next_id 48000 (emptyDB.next_id + 1)).order_side = "sell"
        ∧ (takeProfitRow c1Input emptyDB.next_id 52000 (emptyDB.next_id + 2)).order_side = "sell")
    ∧ ((rootRow c1Input emptyDB.next_id).order_side = "sell" →
        (stopLossRow c1Input emptyDB.next_id 48000 (emptyDB.next_id + 1)).order_side = "buy"
        ∧ (takeProfitRow c1Input emptyDB.next_id 52000 (emptyDB.next_id + 2)).order_side = "buy") :=
  c1_create_order_three_orders c1Input emptyDB 48000 52000 rfl rfl
    (by decide) (by decide) (by decide) (by decide) (Or.inl rfl)
    (by norm_num [c1Input]) (by norm_num [c1Input]) (by norm_num) (by norm_num)

set_option maxHeartbeats 1000000 in
/-- C5: any create_order input with nonpositive quantity, nonpositive
target price, or a side outside buy/sell is rejected with a validation
error, and the database is returned unchanged: no order row and no event
row is written. -/
theorem c5_create_order_invalid_no_write
    (inp : CreateOrderInput) (db : DB)
    (h : inp.initial_quantity ≤ 0 ∨ inp.target_price ≤ 0 ∨
         (inp.order_side ≠ "buy" ∧ inp.order_side ≠ "sell")) :
    (∃ msg, (create_order inp db).1 = .error msg)
    ∧ (create_order inp db).2 = db := by
  have hval : ∃ msg, validate_create_order inp = some msg := by
    unfold validate_create_order
    split_ifs with h1 h2 h3 h4 h5 h6 h7 h8 h9
    any_goals exact ⟨_, rfl⟩
    exfalso
    rcases h with h | h | h
    · exact h7 h
    · exact h6 h
    · exact h5 h
  obtain ⟨msg, hv⟩ := hval
  refine ⟨⟨msg, ?_⟩, ?_⟩ <;> simp [create_order, hv]

/-- Witness for C5: the theorem applied at a concrete invalid input. -/
theorem c5_create_order_invalid_no_write_witness :
    (∃ msg, (create_order c5Input emptyDB).1 = .error msg)
    ∧ (create_order c5Input emptyDB).2 = emptyDB :=
  c5_create_order_invalid_no_write c5Input emptyDB
    (Or.inl (by norm_num [c5Input, c1Input]))

end OrderCtl


namespace EventQ

theorem specLE_refl (a : EventRec) : specLE a a = true := by
  simp [specLE]

theorem beats_imp_specLE {a b : EventRec} (h : beats a b = true) :
    specLE a b = true := by
  simp only [beats, Bool.or_eq_true, Bool.and_eq_true, decide_eq_true_eq,
    beq_iff_eq] at h
  simp only [specLE, Bool.or_eq_true, Bool.and_eq_true, decide_eq_true_eq,
    beq_iff_eq]
  omega

theorem not_beats_imp_specLE {a b : EventRec} (h : beats a b = false) :
    specLE b a = true := by
  simp only [beats, Bool.or_eq_false_iff, Bool.and_eq_false_iff,
    decide_eq_false_iff_not, beq_eq_false_iff_ne, not_lt, ne_eq] at h
  simp only [specLE, Bool.or_eq_true, Bool.and_eq_true, decide_eq_true_eq,
    beq_iff_eq]
  rcases h with ⟨h1, h2 | h2⟩ <;> omega

theorem specLE_trans {a b c : EventRec} (h1 : specLE a b = true)
    (h2 : specLE b c = true) : specLE a c = true := by
  simp only [specLE, Bool.or_eq_true, Bool.and_eq_true, decide_eq_true_eq,
    beq_iff_eq] at h1 h2 ⊢
  omega

theorem specLE_ne_key_beats {a b : EventRec} (h : specLE a b = true)
    (hk : (a.priority, a.created_at) ≠ (b.priority, b.created_at)) :
    beats a b = true := by
  simp only [specLE, Bool.or_eq_true, Bool.and_eq_true, decide_eq_true_eq,
    beq_iff_eq] at h
  simp only [beats, Bool.or_eq_true, Bool.and_eq_true, decide_eq_true_eq,
    beq_iff_eq]
  simp only [ne_eq, Prod.mk.injEq, not_and] at hk
  by_cases hp : a.priority = b.priority
  · have := hk hp
    omega
  · omega

theorem beats_imp_not_specLE {a b : EventRec} (h : beats a b = true) :
    specLE b a = false := by
  simp only [beats, Bool.or_eq_true, Bool.and_eq_true, decide_eq_true_eq,
    beq_iff_eq] at h
  simp only [specLE, Bool.or_eq_false_iff, Bool.and_eq_false_iff,
    decide_eq_false_iff_not, beq_eq_false_iff_ne, not_lt, ne_eq]
  constructor
  · omega
  · by_cases hp : b.priority = a.priority
    · right; omega
    · left; exact hp

theorem pickBest_cons_ne_none (e : EventRec) (rest : List EventRec) :
    pickBest (e :: rest) ≠ none := by
  simp only [pickBest]
  cases pickBest rest with
  | none => simp
  | some b => by_cases h : beats b e = true <;> simp [h]

theorem pickBest_mem : ∀ {l : List EventRec} {e : EventRec},
    pickBest l = some e → e ∈ l := by
  intro l
  induction l with
  | nil => intro e h; simp [pickBest] at h
  | cons x xs ih =>
    intro e h
    cases hx : pickBest xs with
    | none =>
      simp only [pickBest, hx, Option.some.injEq] at h
      simp [h]
    | some b =>
      simp only [pickBest, hx] at h
      by_cases hb : beats b x = true
      · rw [if_pos hb] at h
        simp only [Option.some.injEq] at h
        subst h
        exact List.mem_cons_of_mem _ (ih hx)
      · rw [if_neg hb] at h
        simp only [Option.some.injEq] at h
        simp [h]

theorem pickBest_min : ∀ {l : List EventRec} {e : EventRec},
    pickBest l = some e → ∀ x ∈ l, specLE e x = true := by
  intro l
  induction l with
  | nil => intro e h; simp [pickBest] at h
  | cons y xs ih =>
    intro e h x hx
    cases hy : pickBest xs with
    | none =>
      simp only [pickBest, hy, Option.some.injEq] at h
      subst h
      rcases List.mem_cons.mp hx with rfl | hx'
      · exact specLE_refl x
      · cases xs with
        | nil => simp at hx'
        | cons a as => exact absurd hy (pickBest_cons_ne_none a as)
    | some b =>
      simp only [pickBest, hy] at h
      by_cases hb : beats b y = true
      · rw [if_pos hb] at h
        simp only [Option.some.injEq] at h
        subst h
        rcases List.mem_cons.mp hx with rfl | hx'
        · exact beats_imp_specLE hb
        · exact ih hy x hx'
      · rw [if_neg hb] at h
        simp only [Option.some.injEq] at h
        subst h
        have hb' : beats b y = false := by
          revert hb; cases beats b y <;> simp
        rcases List.mem_cons.mp hx with rfl | hx'
        · exact specLE_refl x
        · exact specLE_trans (not_beats_imp_specLE hb') (ih hy x hx')

theorem mem_insertSorted {a e : EventRec} : ∀ {l : List EventRec},
    a ∈ insertSorted e l ↔ a = e ∨ a ∈ l := by
  intro l
  induction l with
  | nil => simp [insertSorted]
  | cons x xs ih =>
    simp only [insertSorted]
    by_cases h : specLE e x = true
    · rw [if_pos h]
      exact List.mem_cons
    · rw [if_neg h]
      simp only [List.mem_cons, ih]
      tauto

theorem mem_sortEvents {a : EventRec} : ∀ {l : List EventRec},
    a ∈ sortEvents l ↔ a ∈ l := by
  intro l
  induction l with
  | nil => simp [sortEvents]
  | cons x xs ih =>
    simp only [sortEvents, mem_insertSorted, ih, List.mem_cons]

theorem insertSorted_cons_of_le {e : EventRec} {l : List EventRec}
    (h : ∀ y ∈ l, specLE e y = true) : insertSorted e l = e :: l := by
  cases l with
  | nil => rfl
  | cons x xs =>
    simp only [insertSorted]
    rw [if_pos (h x (by simp))]

theorem insertSorted_cons_of_gt {x e : EventRec} {l : List EventRec}
    (h : specLE x e = false) : insertSorted x (e :: l) = e :: insertSorted x l := by
  simp only [insertSorted]
  rw [if_neg (by simp [h])]

theorem sortEvents_of_min : ∀ {l : List EventRec} {e : EventRec},
    e ∈ l → (∀ x ∈ l, x ≠ e → beats e x = true) →
    sortEvents l = e :: sortEvents (l.erase e) := by
  intro l
  induction l with
  | nil => intro e he _; simp at he
  | cons x xs ih =>
    intro e he hmin
    by_cases hxe : x = e
    · subst hxe
      rw [List.erase_cons_head]
      simp only [sortEvents]
      apply insertSorted_cons_of_le
      intro y hy
      rw [mem_sortEvents] at hy
      by_cases hye : y = x
      · subst hye; exact specLE_refl y
      · exact beats_imp_specLE (hmin y (List.mem_cons_of_mem _ hy) hye)
    · have hexs : e ∈ xs := by
        rcases List.mem_cons.mp he with h | h
        · exact absurd h.symm hxe
        · exact h
      have hbx : beats e x = true := hmin x (by simp) hxe
      rw [List.erase_cons_tail (by simp [hxe])]
      simp only [sortEvents]
      rw [ih hexs (fun y hy hne => hmin y (List.mem_cons_of_mem _ hy) hne)]
      rw [insertSorted_cons_of_gt (beats_imp_not_specLE hbx)]

theorem pickBest_strict_min {l : List EventRec} {e : EventRec}
    (hN : (l.map fun ev => (ev.priority, ev.created_at)).Nodup)
    (h : pickBest l = some e) :
    ∀ x ∈ l, x ≠ e → beats e x = true := by
  intro x hx hne
  apply specLE_ne_key_beats (pickBest_min h x hx)
  intro hk
  exact hne (List.inj_on_of_nodup_map hN (pickBest_mem h) hx hk).symm

end EventQ

namespace EventQ

theorem mark_of_not_mem_ids {event_id : Nat} {t : Nat} :
    ∀ {rows : List EventRec},
    event_id ∉ rows.map EventRec.event_id →
    mark_event_as_processed event_id t rows = rows := by
  intro rows
  induction rows with
  | nil => intro _; rfl
  | cons r rest ih =>
    intro h
    simp only [List.map_cons, List.mem_cons] at h
    push_neg at h
    simp only [mark_event_as_processed, List.map_cons] at ih ⊢
    rw [if_neg (by simp; exact fun hh => h.1 hh.symm)]
    exact congrArg (r :: ·) (ih h.2)

theorem mark_map_event_id (event_id t : Nat) (rows : List EventRec) :
    (mark_event_as_processed event_id t rows).map EventRec.event_id
      = rows.map EventRec.event_id := by
  simp only [mark_event_as_processed, List.map_map]
  apply List.map_congr_left
  intro e _
  simp only [Function.comp_apply]
  split <;> rfl

theorem mark_map_created_at (event_id t : Nat) (rows : List EventRec) :
    (mark_event_as_processed event_id t rows).map EventRec.created_at
      = rows.map EventRec.created_at := by
  simp only [mark_event_as_processed, List.map_map]
  apply List.map_congr_left
  intro e _
  simp only [Function.comp_apply]
  split <;> rfl

theorem mem_of_mem_pendingFor {mgr : String} {rows : List EventRec}
    {e : EventRec} (h : e ∈ pendingFor mgr rows) : e ∈ rows :=
  List.mem_of_mem_filter h

theorem pendingFor_mark_erase {mgr : String} {t : Nat} :
    ∀ {rows : List EventRec} {e : EventRec},
    (rows.map EventRec.event_id).Nodup →
    e ∈ pendingFor mgr rows →
    pendingFor mgr (mark_event_as_processed e.event_id t rows)
      = (pendingFor mgr rows).erase e := by
  intro rows
  induction rows with
  | nil => intro e _ he; simp [pendingFor] at he
  | cons r rest ih =>
    intro e hN he
    simp only [List.map_cons, List.nodup_cons] at hN
    obtain ⟨hrid, hNrest⟩ := hN
    by_cases hid : r.event_id = e.event_id
    · have hnotin : e ∉ pendingFor mgr rest := by
        intro hmem
        exact hrid (hid ▸ List.mem_map_of_mem EventRec.event_id
          (mem_of_mem_pendingFor hmem))
      have hpr : isPending mgr r = true ∧ e = r := by
        simp only [pendingFor, List.filter_cons] at he
        by_cases hp : isPending mgr r = true
        · rw [if_pos hp] at he
          rcases List.mem_cons.mp he with rfl | hmem
          · exact ⟨hp, rfl⟩
          · exact absurd hmem hnotin
        · rw [if_neg hp] at he
          exact absurd he hnotin
      obtain ⟨hp, rfl⟩ := hpr
      simp only [mark_event_as_processed, List.map_cons]
      rw [if_pos (by simp [hid])]
      have hrest : rest.map (fun x =>
          if x.event_id == e.event_id then { x with executed_at := some t } else x)
            = rest := by
        have := @mark_of_not_mem_ids e.event_id t rest (hid ▸ hrid)
        simpa [mark_event_as_processed] using this
      rw [hrest]
      simp only [pendingFor, List.filter_cons]
      rw [if_pos hp, if_neg (by simp [isPending])]
      rw [List.erase_cons_head]
    · have hner : e ≠ r := fun hh => hid (by rw [hh])
      have he' : e ∈ pendingFor mgr rest := by
        simp only [pendingFor, List.filter_cons] at he
        by_cases hp : isPending mgr r = true
        · rw [if_pos hp] at he
          rcases List.mem_cons.mp he with rfl | hmem
          · exact absurd rfl hner
          · exact hmem
        · rwa [if_neg hp] at he
      simp only [mark_event_as_processed, List.map_cons]
      rw [if_neg (by simp; exact fun hh => hid hh)]
      simp only [pendingFor, List.filter_cons]
      by_cases hp : isPending mgr r = true
      · rw [if_pos hp, if_pos hp]
        rw [List.erase_cons_tail (by simp; exact Ne.symm hner)]
        have := ih (e := e) hNrest he'
        simp only [pendingFor, mark_event_as_processed] at this
        rw [this]
      · rw [if_neg hp, if_neg hp]
        have := ih (e := e) hNrest he'
        simp only [pendingFor, mark_event_as_processed] at this
        rw [this]

theorem add_event_inv {mgr ty pl : String} {pr : Int} {db : EventsDB}
    (h : EventsDBInv db) : EventsDBInv (add_event mgr ty pr pl db).2 := by
  obtain ⟨h1, h2, h3⟩ := h
  refine ⟨?_, ?_, ?_⟩
  · simp only [add_event, List.map_append, List.map_cons, List.map_nil]
    rw [List.nodup_append]
    refine ⟨h1, by simp, ?_⟩
    intro x hx
    simp only [List.mem_singleton]
    rcases List.mem_map.mp hx with ⟨e, he, rfl⟩
    have := (h3 e he).1
    simp
    omega
  · simp only [add_event, List.map_append, List.map_cons, List.map_nil]
    rw [List.nodup_append]
    refine ⟨h2, by simp, ?_⟩
    intro x hx
    simp only [List.mem_singleton]
    rcases List.mem_map.mp hx with ⟨e, he, rfl⟩
    have := (h3 e he).2
    simp
    omega
  · intro e he
    simp only [add_event, List.mem_append, List.mem_singleton] at he
    rcases he with he | rfl
    · have := h3 e he
      simp only [add_event]
      omega
    · simp only [add_event]
      omega

theorem mkEventsDB_inv : EventsDBInv mkEventsDB := by
  refine ⟨by simp [mkEventsDB], by simp [mkEventsDB], ?_⟩
  intro e he
  simp [mkEventsDB] at he

theorem addAll_inv (adds : List (String × String × Int × String)) :
    ∀ {db : EventsDB}, EventsDBInv db → EventsDBInv (addAll adds db) := by
  induction adds with
  | nil => intro db h; exact h
  | cons a rest ih =>
    intro db h
    simp only [addAll, List.foldl_cons] at ih ⊢
    exact ih (add_event_inv h)

theorem pending_times_nodup {mgr : String} {rows : List EventRec}
    (h : (rows.map EventRec.created_at).Nodup) :
    ((pendingFor mgr rows).map EventRec.created_at).Nodup :=
  h.sublist ((List.filter_sublist rows).map EventRec.created_at)

theorem keys_nodup_of_times_nodup {l : List EventRec}
    (h : (l.map EventRec.created_at).Nodup) :
    (l.map fun e => (e.priority, e.created_at)).Nodup := by
  have heq : ((l.map fun e => (e.priority, e.created_at)).map Prod.snd)
      = l.map EventRec.created_at := by
    simp only [List.map_map]
    rfl
  exact List.Nodup.of_map Prod.snd (heq ▸ h)

theorem dispatchSeq_eq_sortEvents {mgr : String} :
    ∀ (fuel : Nat) (rows : List EventRec),
    (rows.map EventRec.event_id).Nodup →
    (rows.map EventRec.created_at).Nodup →
    (pendingFor mgr rows).length ≤ fuel →
    dispatchSeq mgr rows fuel = sortEvents (pendingFor mgr rows) := by
  intro fuel
  induction fuel with
  | zero =>
    intro rows _ _ hlen
    have hnil : pendingFor mgr rows = [] :=
      List.length_eq_zero.mp (Nat.le_zero.mp hlen)
    simp [dispatchSeq, hnil, sortEvents]
  | succ fuel ih =>
    intro rows hIds hTimes hlen
    cases hpick : get_next_event mgr rows with
    | none =>
      have hnil : pendingFor mgr rows = [] := by
        cases hp : pendingFor mgr rows with
        | nil => rfl
        | cons a as =>
          rw [get_next_event, hp] at hpick
          exact absurd hpick (pickBest_cons_ne_none a as)
      simp only [dispatchSeq, hpick]
      simp [hnil, sortEvents]
    | some e =>
      have hpick' : pickBest (pendingFor mgr rows) = some e := hpick
      have hmem : e ∈ pendingFor mgr rows := pickBest_mem hpick'
      have hKeys : ((pendingFor mgr rows).map
          fun ev => (ev.priority, ev.created_at)).Nodup :=
        keys_nodup_of_times_nodup (pending_times_nodup hTimes)
      have hstrict := pickBest_strict_min hKeys hpick'
      have hbridge := pendingFor_mark_erase (t := 0) hIds hmem
      simp only [dispatchSeq, hpick]
      rw [sortEvents_of_min hmem hstrict]
      congr 1
      rw [← hbridge]
      apply ih
      · rw [mark_map_event_id]; exact hIds
      · rw [mark_map_created_at]; exact hTimes
      · rw [hbridge, List.length_erase_of_mem hmem]
        have hpos : 0 < (pendingFor mgr rows).length := List.length_pos.mpr
          (fun hh => by simp [hh] at hmem)
        omega

end EventQ

namespace EventQ

/-- C3: for the pending events of one manager, get_next_event always selects
a pending event of that manager that precedes (specLE) every other pending
event — highest priority first, earliest created_at among equal priorities —
and for any sequence of add_event calls the dispatch order of the run loop
equals the sort by priority descending with ties broken by created_at
ascending. -/
theorem c3_dispatch_is_priority_sort
    (adds : List (String × String × Int × String)) (mgr : String) (fuel : Nat)
    (hfuel : (pendingFor mgr (addAll adds mkEventsDB).rows).length ≤ fuel) :
    (∀ e, get_next_event mgr (addAll adds mkEventsDB).rows = some e →
        e ∈ pendingFor mgr (addAll adds mkEventsDB).rows
        ∧ ∀ x ∈ pendingFor mgr (addAll adds mkEventsDB).rows, specLE e x = true)
    ∧ dispatchSeq mgr (addAll adds mkEventsDB).rows fuel
        = sortEvents (pendingFor mgr (addAll adds mkEventsDB).rows) := by
  obtain ⟨hIds, hTimes, _⟩ := addAll_inv adds mkEventsDB_inv
  refine ⟨fun e he => ⟨pickBest_mem he, pickBest_min he⟩, ?_⟩
  exact dispatchSeq_eq_sortEvents fuel _ hIds hTimes hfuel

/-- Witness for C3: the spec's own example — enqueue HIGH, MEDIUM, MEDIUM,
LOW in that creation order; the dispatch sequence is the priority sort,
whose priorities read HIGH, MEDIUM, MEDIUM, LOW. -/
theorem c3_dispatch_is_priority_sort_witness :
    (dispatchSeq "m" (addAll c3Adds mkEventsDB).rows 4
      = sortEvents (pendingFor "m" (addAll c3Adds mkEventsDB).rows))
    ∧ (dispatchSeq "m" (addAll c3Adds mkEventsDB).rows 4).map EventRec.priority
      = [3, 2, 2, 1] :=
  ⟨(c3_dispatch_is_priority_sort c3Adds "m" 4 (by decide)).2, by decide⟩

end EventQ

namespace EMFactory

/-- C9: for every mode, EventManager.create_new returns None and leaves the
event_managers table unchanged, never yielding a usable EventManager: the
internal call supplies only two of add_event_manager's three required
positional parameters, so it raises TypeError before the body runs; the
except-block swallows the error and returns None. -/
theorem c9_create_new_always_none (mode : String) (tbl : List EMRow) :
    create_new mode tbl = (none, tbl)
    ∧ callWith3 add_event_manager_body [mode, "inactive"]
        = .error (.typeError "missing required positional argument") :=
  ⟨rfl, rfl⟩

end EMFactory

namespace Exec

/-- C4: at the failing input — a repository holding one order in status
executing — constructing the executor yields an empty monitor dict: the
executing order's id is not enqueued, even though get_executing_orders
would report it; indeed the constructor ignores the repository contents
entirely. -/
theorem c4_init_monitor_queue_empty :
    (liveOrderExecutorInit [⟨7, "bybit", "executing"⟩]).executing_orders = []
    ∧ get_executing_orders [⟨7, "bybit", "executing"⟩] = [7]
    ∧ ∀ repo : List ExecOrder,
        (liveOrderExecutorInit repo).executing_orders = [] :=
  ⟨rfl, by decide, fun _ => rfl⟩


theorem get_order_by_id_update_self (order_id : Nat) (status : String) :
    ∀ repo : List ExecOrder,
    get_order_by_id order_id (update_order_status order_id status repo)
      = (get_order_by_id order_id repo).map
          fun o => { o with order_status := status } := by
  intro repo
  induction repo with
  | nil => rfl
  | cons r rest ih =>
    simp only [update_order_status, List.map_cons, get_order_by_id,
      List.find?] at ih ⊢
    by_cases h : (r.order_id == order_id) = true
    · rw [if_pos h]
      simp only [h, cond_true]
      rfl
    · have h' : (r.order_id == order_id) = false := by
        revert h; cases r.order_id == order_id <;> simp
      rw [if_neg h]
      simp only [h', cond_false]
      exact ih

theorem get_order_by_id_update_ne {order_id other : Nat} (status : String)
    (hne : order_id ≠ other) :
    ∀ repo : List ExecOrder,
    get_order_by_id order_id (update_order_status other status repo)
      = get_order_by_id order_id repo := by
  intro repo
  induction repo with
  | nil => rfl
  | cons r rest ih =>
    simp only [update_order_status, List.map_cons, get_order_by_id,
      List.find?] at ih ⊢
    by_cases hro : (r.order_id == other) = true
    · have hx : (r.order_id == order_id) = false := by
        simp only [beq_iff_eq] at hro
        subst hro
        simp [beq_eq_false_iff_ne]
        exact fun hh => hne hh.symm
      rw [if_pos hro]
      simp only [hx, cond_false]
      exact ih
    · rw [if_neg hro]
      by_cases hx : (r.order_id == order_id) = true
      · simp only [hx, cond_true]
      · have hx' : (r.order_id == order_id) = false := by
          revert hx; cases r.order_id == order_id <;> simp
        simp only [hx', cond_false]
        exact ih

theorem dictInsert_cons_ne {p : Nat × ExecOrder} {ps : List (Nat × ExecOrder)}
    {k : Nat} {v : ExecOrder} (hp : (p.1 == k) = false) :
    dictInsert (p :: ps) k v = p :: dictInsert ps k v := by
  simp only [dictInsert, List.find?, hp, cond_false]
  by_cases h : (List.find? (fun q => q.1 == k) ps).isSome = true
  · rw [if_pos h, if_pos h]
    simp only [List.map_cons, hp, Bool.false_eq_true, if_false]
  · rw [if_neg h, if_neg h]
    rfl

theorem dictLookup_dictInsert_self (d : List (Nat × ExecOrder)) (k : Nat)
    (v : ExecOrder) : dictLookup (dictInsert d k v) k = some v := by
  induction d with
  | nil =>
    simp [dictInsert, dictLookup, List.find?]
  | cons p ps ih =>
    by_cases hp : (p.1 == k) = true
    · simp only [dictInsert]
      have hfind : (List.find? (fun q => q.1 == k) (p :: ps)).isSome = true := by
        simp only [List.find?, hp, cond_true, Option.isSome_some]
      rw [if_pos hfind]
      simp only [List.map_cons, hp, if_true]
      simp [dictLookup, List.find?]
    · have hp' : (p.1 == k) = false := by
        revert hp; cases p.1 == k <;> simp
      rw [dictInsert_cons_ne hp']
      simp only [dictLookup, List.find?, hp', cond_false] at ih ⊢
      exact ih

/-- C2: at the failing input — order 7 already in status executing after a
first execute_order call — the code evaluates as follows: the second call
returns successfully and performs a second gateway submission, leaving two
entries for id 7 in the submission log, where the claim requires the second
call to perform no submission and raise InvariantViolation; execute_order
contains no status check and no InvariantViolation exists anywhere in the
repository. -/
theorem c2_second_call_submits_again :
    (get_order_by_id 7 c2State1.repo).map ExecOrder.order_status
      = some "executing"
    ∧ (execute_order ["bybit"] (fun _ => true) 7 c2State1).1 = .ok ()
    ∧ (execute_order ["bybit"] (fun _ => true) 7 c2State1).2.submissions
      = [7, 7] :=
  ⟨rfl, rfl, rfl⟩

/-- Supporting lemma for the missing idempotency guard: execute_order
performs no status check, so called on any order already in status
executing (with its exchange configured and the gateway accepting), it
submits to the gateway again and returns without error; the stored row is
merely set to executing again, so its value is unchanged and the
pending-to-executing transition happened only once, on the first call. -/
theorem c2_amended_no_idempotency_guard
    (exchanges : List String) (placeOk : Nat → Bool) (order_id : Nat)
    (s : EngineState) (order : ExecOrder)
    (h1 : get_order_by_id order_id s.repo = some order)
    (h2 : order.order_status = "executing")
    (h3 : exchanges.contains order.exchange = true)
    (h4 : placeOk order_id = true) :
    (execute_order exchanges placeOk order_id s).1 = .ok ()
    ∧ (execute_order exchanges placeOk order_id s).2.submissions
        = s.submissions ++ [order_id]
    ∧ get_order_by_id order_id
        (execute_order exchanges placeOk order_id s).2.repo = some order := by
  have h3m : order.exchange ∈ exchanges := by simpa using h3
  refine ⟨?_, ?_, ?_⟩
  · simp [execute_order, h1, h3m, h4]
  · simp [execute_order, h1, h3m, h4]
  · simp only [execute_order, h1, h3, h4, eq_self_iff_true, if_true]
    rw [get_order_by_id_update_self, h1]
    have horder : { order with order_status := "executing" } = order := by
      cases order with
      | mk oid ex st =>
        have h2' : st = "executing" := h2
        subst h2'
        rfl
    rw [Option.map_some', horder]

/-- The no-idempotency-guard lemma instantiated at the concrete second
call on c2State1. -/
theorem c2_amended_no_idempotency_guard_witness :
    (execute_order ["bybit"] (fun _ => true) 7 c2State1).1 = .ok ()
    ∧ (execute_order ["bybit"] (fun _ => true) 7 c2State1).2.submissions
        = c2State1.submissions ++ [7]
    ∧ get_order_by_id 7
        (execute_order ["bybit"] (fun _ => true) 7 c2State1).2.repo
        = some ⟨7, "bybit", "executing"⟩ :=
  c2_amended_no_idempotency_guard ["bybit"] (fun _ => true) 7 c2State1
    ⟨7, "bybit", "executing"⟩ rfl rfl rfl rfl

/-- C6: once execute_order has found the order and its exchange, a failing
gateway submission leaves the repository and the monitor dict unchanged
(only the submission log grows) and the error is propagated to the caller;
a successful submission returns ok, sets the order's status to executing in
the repository, and puts the id into the monitor dict. -/
theorem c6_submission_failure_vs_success
    (exchanges : List String) (placeOk : Nat → Bool) (order_id : Nat)
    (s : EngineState) (order : ExecOrder)
    (h1 : get_order_by_id order_id s.repo = some order)
    (h3 : exchanges.contains order.exchange = true) :
    (placeOk order_id = false →
      execute_order exchanges placeOk order_id s
        = (.error .placementFailed,
           { s with submissions := s.submissions ++ [order_id] }))
    ∧ (placeOk order_id = true →
      (execute_order exchanges placeOk order_id s).1 = .ok ()
      ∧ get_order_by_id order_id
          (execute_order exchanges placeOk order_id s).2.repo
          = some { order with order_status := "executing" }
      ∧ dictLookup
          (execute_order exchanges placeOk order_id s).2.executing_orders
          order_id
          = some { order with order_status := "executing" }) := by
  have h3m : order.exchange ∈ exchanges := by simpa using h3
  constructor
  · intro h4
    simp [execute_order, h1, h3m, h4]
  · intro h4
    refine ⟨?_, ?_, ?_⟩
    · simp [execute_order, h1, h3m, h4]
    · simp only [execute_order, h1, h3, h4, eq_self_iff_true, if_true]
      rw [get_order_by_id_update_self, h1]
      rfl
    · simp only [execute_order, h1, h3, h4, eq_self_iff_true, if_true]
      exact dictLookup_dictInsert_self _ _ _

/-- Witness for C6: both branches at the concrete pending order 7 — a
rejecting gateway leaves everything but the submission log unchanged and
the error propagates; an accepting gateway marks the order executing and
monitors it. -/
theorem c6_submission_failure_vs_success_witness :
    (execute_order ["bybit"] (fun _ => false) 7 c2State0
      = (.error .placementFailed,
         { c2State0 with submissions := c2State0.submissions ++ [7] }))
    ∧ ((execute_order ["bybit"] (fun _ => true) 7 c2State0).1 = .ok ()
      ∧ get_order_by_id 7
          (execute_order ["bybit"] (fun _ => true) 7 c2State0).2.repo
          = some { (⟨7, "bybit", "pending"⟩ : ExecOrder) with
                     order_status := "executing" }
      ∧ dictLookup
          (execute_order ["bybit"] (fun _ => true) 7
            c2State0).2.executing_orders 7
          = some { (⟨7, "bybit", "pending"⟩ : ExecOrder) with
                     order_status := "executing" }) :=
  ⟨(c6_submission_failure_vs_success ["bybit"] (fun _ => false) 7 c2State0
      ⟨7, "bybit", "pending"⟩ rfl rfl).1 rfl,
   (c6_submission_failure_vs_success ["bybit"] (fun _ => true) 7 c2State0
      ⟨7, "bybit", "pending"⟩ rfl rfl).2 rfl⟩

end Exec

namespace EMLoop

theorem runLoop_handler_completes (obs : Nat → Bool)
    (getEvent : Nat → Option Nat) :
    ∀ (fuel i k eid : Nat),
    (runLoop obs getEvent fuel i).get? k = some (.handleStart eid) →
    (runLoop obs getEvent fuel i).get? (k + 1) = some (.handleEnd eid) := by
  intro fuel
  induction fuel with
  | zero => intro i k eid h; simp [runLoop] at h
  | succ fuel ih =>
    intro i k eid h
    simp only [runLoop] at h ⊢
    by_cases ho : obs i = true
    · rw [if_pos ho] at h ⊢
      cases hg : getEvent i with
      | none =>
        rw [hg] at h
        cases k with
        | zero => simp at h
        | succ k =>
          simp only [List.get?_cons_succ] at h ⊢
          exact ih (i + 1) k eid h
      | some e =>
        rw [hg] at h
        cases k with
        | zero =>
          simp only [List.get?_cons_zero, Option.some.injEq,
            LoopAction.handleStart.injEq] at h
          subst h
          rfl
        | succ k =>
          cases k with
          | zero => simp at h
          | succ k =>
            simp only [List.get?_cons_succ] at h ⊢
            exact ih (i + 1) k eid h
    · rw [if_neg ho] at h ⊢
      cases k with
      | zero => simp at h
      | succ k => simp at h

theorem runLoop_inactive_last (obs : Nat → Bool) (getEvent : Nat → Option Nat) :
    ∀ (fuel i k : Nat),
    (runLoop obs getEvent fuel i).get? k = some .setInactive →
    k + 1 = (runLoop obs getEvent fuel i).length := by
  intro fuel
  induction fuel with
  | zero => intro i k h; simp [runLoop] at h
  | succ fuel ih =>
    intro i k h
    simp only [runLoop] at h ⊢
    by_cases ho : obs i = true
    · rw [if_pos ho] at h ⊢
      cases hg : getEvent i with
      | none =>
        rw [hg] at h
        cases k with
        | zero => simp at h
        | succ k =>
          simp only [List.get?_cons_succ] at h
          simp only [List.length_cons]
          rw [← ih (i + 1) k h]
      | some e =>
        rw [hg] at h
        cases k with
        | zero => simp at h
        | succ k =>
          cases k with
          | zero => simp at h
          | succ k =>
            simp only [List.get?_cons_succ] at h
            simp only [List.length_cons]
            rw [← ih (i + 1) k h]
    · rw [if_neg ho] at h ⊢
      cases k with
      | zero => rfl
      | succ k => simp at h

/-- C7: stop only flips the running flag — it never touches the persisted
status and never aborts a handler: in every trace of the run loop each
handleStart is immediately followed by its handleEnd (handlers run to
completion, the flag being read only at the loop head), and the transition
to inactive, when present, is the last action of the trace, emitted after
the loop exits; so a stop signalled while a handler executes takes effect
only after that handler returns. -/
theorem c7_stop_waits_for_running_handler (obs : Nat → Bool)
    (getEvent : Nat → Option Nat) (fuel i : Nat) (s : EMState) :
    (stopEM s).status = s.status ∧ (stopEM s).running = false
    ∧ (∀ k eid, (runLoop obs getEvent fuel i).get? k
          = some (.handleStart eid) →
        (runLoop obs getEvent fuel i).get? (k + 1) = some (.handleEnd eid))
    ∧ (∀ k, (runLoop obs getEvent fuel i).get? k = some .setInactive →
        k + 1 = (runLoop obs getEvent fuel i).length) :=
  ⟨rfl, rfl,
   fun k eid h => runLoop_handler_completes obs getEvent fuel i k eid h,
   fun k h => runLoop_inactive_last obs getEvent fuel i k h⟩

/-- Witness for C7: a concrete trace in which stop is signalled during the
handling of event 7 (running reads true only at iteration 0): the trace is
handleStart 7, handleEnd 7, setInactive — the handler completes first and
the inactive transition is last. -/
theorem c7_stop_waits_for_running_handler_witness :
    runLoop (fun i => i == 0) (fun _ => some 7) 3 0
      = [.handleStart 7, .handleEnd 7, .setInactive]
    ∧ (runLoop (fun i => i == 0) (fun _ => some 7) 3 0).get? 1
        = some (.handleEnd 7)
    ∧ 2 + 1 = (runLoop (fun i => i == 0) (fun _ => some 7) 3 0).length :=
  ⟨by decide,
   (c7_stop_waits_for_running_handler (fun i => i == 0) (fun _ => some 7) 3 0
      ⟨true, "active"⟩).2.2.1 0 7 (by decide),
   (c7_stop_waits_for_running_handler (fun i => i == 0) (fun _ => some 7) 3 0
      ⟨true, "active"⟩).2.2.2 2 (by decide)⟩

end EMLoop

namespace EventQ

/-- C8 (counterexample): with a single pending event whose handler always
fails, the loop selects and re-handles that same event on every subsequent
iteration — the subsystem does automatically redeliver the failed event
(here three times in three iterations), contrary to the claim's
no-redelivery clause. -/
theorem c8_failed_event_redelivered :
    dispatchLoopH (fun _ _ => false) "m" 0 c8Rows 3 = [0, 0, 0] := by decide

/-- C8 (amended): a handler exception is caught — handle_event always
returns, leaving the table untouched, so the event's executed_at stays
NULL — and the loop continues to its next iteration; but because the failed
event is still the best pending event, that next iteration selects the very
same event again: the subsystem automatically re-attempts it instead of
leaving redelivery to a caller. -/
theorem c8_amended_failed_event_kept_and_retried
    (handlerOk : Nat → Nat → Bool) (mgr : String) (rows : List EventRec)
    (e : EventRec) (k fuel t : Nat)
    (h1 : get_next_event mgr rows = some e)
    (h2 : handlerOk k e.event_id = false) :
    handle_event false e t rows = rows
    ∧ (dispatchLoopH handlerOk mgr k rows (fuel + 2)).take 2
        = [e.event_id, e.event_id] := by
  refine ⟨rfl, ?_⟩
  simp only [dispatchLoopH, h1, h2, handle_event, Bool.false_eq_true, if_false]
  simp [List.take]

/-- Witness for C8 (amended): the concrete one-event table with an
always-failing handler. -/
theorem c8_amended_failed_event_kept_and_retried_witness :
    handle_event false ⟨0, "m", "OrderPlacementEvent", 1, "payload", 0, none⟩
        0 c8Rows = c8Rows
    ∧ (dispatchLoopH (fun _ _ => false) "m" 0 c8Rows (1 + 2)).take 2
        = [0, 0] :=
  c8_amended_failed_event_kept_and_retried (fun _ _ => false) "m" c8Rows
    ⟨0, "m", "OrderPlacementEvent", 1, "payload", 0, none⟩ 0 1 0
    (by decide) rfl

end EventQ

namespace Exec

theorem find?_update_ne {k kq : Nat} {v : ExecOrder} (hkk : (k == kq) = false) :
    ∀ ps : List (Nat × ExecOrder),
    List.find? (fun p => p.1 == kq)
        (ps.map fun p => if p.1 == k then (k, v) else p)
      = List.find? (fun p => p.1 == kq) ps := by
  intro ps
  induction ps with
  | nil => rfl
  | cons q qs ih =>
    by_cases hq : (q.1 == k) = true
    · have hq1 : q.1 = k := by simpa using hq
      simp only [List.map_cons, List.find?]
      rw [if_pos hq]
      simp only [hq1, hkk, cond_false]
      exact ih
    · simp only [List.map_cons, List.find?]
      rw [if_neg hq]
      cases hqk : q.1 == kq with
      | true => simp [hqk]
      | false => simp only [hqk, cond_false]; exact ih

theorem dictLookup_dictInsert_ne {k kq : Nat} {v : ExecOrder} (hne : kq ≠ k) :
    ∀ d, dictLookup (dictInsert d k v) kq = dictLookup d kq := by
  have hkk : (k == kq) = false := beq_eq_false_iff_ne.mpr fun h => hne h.symm
  intro d
  induction d with
  | nil => simp [dictInsert, dictLookup, List.find?, hkk]
  | cons p ps ih =>
    by_cases hp : (p.1 == k) = true
    · simp only [dictInsert]
      have hfind : (List.find? (fun q => q.1 == k) (p :: ps)).isSome = true := by
        simp only [List.find?, hp, cond_true, Option.isSome_some]
      rw [if_pos hfind]
      simp only [dictLookup]
      exact congrArg (Option.map Prod.snd) (find?_update_ne hkk (p :: ps))
    · have hp' : (p.1 == k) = false := by
        revert hp; cases p.1 == k <;> simp
      rw [dictInsert_cons_ne hp']
      simp only [dictLookup, List.find?]
      cases hpk : p.1 == kq with
      | true => simp [hpk]
      | false => simp only [hpk, cond_false]; exact ih

theorem dictLookup_dictPop_ne {k kq : Nat} (hne : kq ≠ k) :
    ∀ d, dictLookup (dictPop d k) kq = dictLookup d kq := by
  intro d
  induction d with
  | nil => rfl
  | cons p ps ih =>
    simp only [dictPop, List.filter_cons] at ih ⊢
    by_cases hp : (p.1 == k) = true
    · have hp1 : p.1 = k := by simpa using hp
      rw [if_neg (by simp [hp])]
      have hpk : (p.1 == kq) = false := by
        simp [hp1, beq_eq_false_iff_ne]
        exact fun hh => hne hh.symm
      simp only [dictLookup, List.find?, hpk, cond_false]
      exact ih
    · rw [if_pos (by simp; exact fun hh => hp (by simp [hh]))]
      simp only [dictLookup, List.find?]
      cases hpk : p.1 == kq with
      | true => simp [hpk]
      | false => simp only [hpk, cond_false]; exact ih

theorem dictLookup_dictPop_self (k : Nat) :
    ∀ d, dictLookup (dictPop d k) k = none := by
  intro d
  induction d with
  | nil => rfl
  | cons p ps ih =>
    simp only [dictPop, List.filter_cons] at ih ⊢
    by_cases hp : (p.1 == k) = true
    · rw [if_neg (by simp [hp])]
      exact ih
    · have hp' : (p.1 == k) = false := by
        revert hp; cases p.1 == k <;> simp
      rw [if_pos (by simp [hp'])]
      simp only [dictLookup, List.find?, hp', cond_false]
      exact ih

theorem dictLookup_dictPop_none {k id : Nat} :
    ∀ d, dictLookup d id = none → dictLookup (dictPop d k) id = none := by
  intro d
  induction d with
  | nil => intro _; rfl
  | cons p ps ih =>
    intro h
    simp only [dictLookup, List.find?] at h
    cases hpk : p.1 == id with
    | true => rw [hpk] at h; simp at h
    | false =>
      rw [hpk] at h
      simp only [cond_false] at h
      simp only [dictPop, List.filter_cons]
      by_cases hp : (!(p.1 == k)) = true
      · rw [if_pos hp]
        simp only [dictLookup, List.find?, hpk, cond_false]
        exact ih h
      · rw [if_neg hp]
        exact ih h

theorem popAll_preserves_none {id : Nat} :
    ∀ (ex : List Nat) (d : List (Nat × ExecOrder)),
    dictLookup d id = none →
    dictLookup (ex.foldl dictPop d) id = none := by
  intro ex
  induction ex with
  | nil => intro d h; exact h
  | cons k ks ih =>
    intro d h
    simp only [List.foldl_cons]
    exact ih _ (dictLookup_dictPop_none d h)

theorem popAll_lookup_not_mem {id : Nat} :
    ∀ (ex : List Nat) (d : List (Nat × ExecOrder)), id ∉ ex →
    dictLookup (ex.foldl dictPop d) id = dictLookup d id := by
  intro ex
  induction ex with
  | nil => intro d _; rfl
  | cons k ks ih =>
    intro d hmem
    simp only [List.foldl_cons]
    rw [ih (dictPop d k) fun hh => hmem (List.mem_cons_of_mem _ hh)]
    exact dictLookup_dictPop_ne
      (fun hh => hmem (by rw [hh]; exact List.mem_cons_self k ks)) d

theorem popAll_lookup_mem {id : Nat} :
    ∀ (ex : List Nat) (d : List (Nat × ExecOrder)), id ∈ ex →
    dictLookup (ex.foldl dictPop d) id = none := by
  intro ex
  induction ex with
  | nil => intro d h; simp at h
  | cons k ks ih =>
    intro d h
    simp only [List.foldl_cons]
    rcases List.mem_cons.mp h with rfl | h'
    · exact popAll_preserves_none ks _ (dictLookup_dictPop_self id d)
    · exact ih _ h'

theorem popAll_keys_sublist :
    ∀ (ex : List Nat) (d : List (Nat × ExecOrder)),
    List.Sublist ((ex.foldl dictPop d).map Prod.fst) (d.map Prod.fst) := by
  intro ex
  induction ex with
  | nil => intro d; exact List.Sublist.refl _
  | cons k ks ih =>
    intro d
    simp only [List.foldl_cons]
    exact (ih (dictPop d k)).trans ((List.filter_sublist d).map Prod.fst)

theorem mem_keys_iff_find?_isSome {k : Nat} :
    ∀ d : List (Nat × ExecOrder),
    k ∈ d.map Prod.fst ↔ (d.find? (fun p => p.1 == k)).isSome = true := by
  intro d
  induction d with
  | nil => simp [List.find?]
  | cons p ps ih =>
    simp only [List.map_cons, List.mem_cons, List.find?]
    cases hp : p.1 == k with
    | true =>
      have hp1 : p.1 = k := by simpa using hp
      simp [hp1]
    | false =>
      have hp1 : p.1 ≠ k := by simpa using hp
      have hp2 : k ≠ p.1 := fun hh => hp1 hh.symm
      simp [cond_false, ih, hp2]

theorem dictInsert_keys_of_mem {d : List (Nat × ExecOrder)} {k : Nat}
    {v : ExecOrder} (h : k ∈ d.map Prod.fst) :
    (dictInsert d k v).map Prod.fst = d.map Prod.fst := by
  rw [dictInsert, if_pos ((mem_keys_iff_find?_isSome d).mp h)]
  rw [List.map_map]
  apply List.map_congr_left
  intro p _
  simp only [Function.comp_apply]
  by_cases hp : (p.1 == k) = true
  · rw [if_pos hp]
    exact (beq_iff_eq.mp hp).symm
  · rw [if_neg hp]

theorem dictLookup_mem {d : List (Nat × ExecOrder)} {id : Nat} {v : ExecOrder}
    (h : dictLookup d id = some v) : (id, v) ∈ d := by
  induction d with
  | nil => simp [dictLookup, List.find?] at h
  | cons p ps ih =>
    simp only [dictLookup, List.find?] at h
    cases hp : p.1 == id with
    | true =>
      rw [hp] at h
      simp only [cond_true, Option.map_some', Option.some.injEq] at h
      have hp1 : p.1 = id := by simpa using hp
      rw [← hp1, ← h]
      exact List.mem_cons_self _ _
    | false =>
      rw [hp] at h
      simp only [cond_false] at h
      exact List.mem_cons_of_mem _ (ih h)

theorem dictLookup_of_mem_nodup {d : List (Nat × ExecOrder)}
    (hN : (d.map Prod.fst).Nodup) {p : Nat × ExecOrder} (hp : p ∈ d) :
    dictLookup d p.1 = some p.2 := by
  induction d with
  | nil => simp at hp
  | cons q qs ih =>
    simp only [List.map_cons, List.nodup_cons] at hN
    rcases List.mem_cons.mp hp with rfl | hp'
    · simp [dictLookup, List.find?]
    · have hq : (q.1 == p.1) = false := by
        have hmem : p.1 ∈ qs.map Prod.fst := List.mem_map_of_mem Prod.fst hp'
        simp only [beq_eq_false_iff_ne, ne_eq]
        exact fun hh => hN.1 (hh ▸ hmem)
      simp only [dictLookup, List.find?, hq, cond_false]
      exact ih hN.2 hp'

end Exec

namespace Exec

theorem executedHere_eq_false_of_contains {exchanges : List String}
    {statusOf : Nat → Option String} {p : Nat × ExecOrder}
    (h : exchanges.contains p.2.exchange = false) :
    executedHere exchanges statusOf p = false := by
  simp only [executedHere, h, Bool.false_and]

theorem executedHere_eq_false_of_status {exchanges : List String}
    {statusOf : Nat → Option String} {p : Nat × ExecOrder}
    (h : (statusOf p.1 == some "executed") = false) :
    executedHere exchanges statusOf p = false := by
  simp only [executedHere, h, Bool.and_false]

theorem monitorPass_executed (exchanges : List String)
    (statusOf : Nat → Option String) :
    ∀ (items : List (Nat × ExecOrder)) (s : EngineState),
    (monitorPass exchanges statusOf items s).2
      = (items.filter (executedHere exchanges statusOf)).map Prod.fst := by
  intro items
  induction items with
  | nil => intro s; rfl
  | cons p rest ih =>
    intro s
    obtain ⟨oid, order⟩ := p
    simp only [monitorPass, List.filter_cons]
    by_cases hc : exchanges.contains order.exchange = true
    · rw [if_pos hc]
      cases hst : statusOf oid with
      | none =>
        have hf : executedHere exchanges statusOf (oid, order) = false :=
          executedHere_eq_false_of_status (p := (oid, order))
            (by show (statusOf oid == some "executed") = false; rw [hst]; rfl)
        rw [if_neg (by simp [hf])]
        exact ih s
      | some st =>
        dsimp only
        by_cases hse : (st == "executed") = true
        · have ht : executedHere exchanges statusOf (oid, order) = true := by
            simp only [executedHere]
            rw [show statusOf (oid, order).1 = some st from hst]
            rw [show ((some st : Option String) == some "executed")
              = (st == "executed") from rfl, hse, hc]
            rfl
          rw [if_pos hse, if_pos (by simp [ht])]
          simp only [List.map_cons]
          exact congrArg (oid :: ·) (ih _)
        · have hse' : (st == "executed") = false := by
            revert hse; cases st == "executed" <;> simp
          have hf : executedHere exchanges statusOf (oid, order) = false :=
            executedHere_eq_false_of_status (p := (oid, order))
              (by show (statusOf oid == some "executed") = false
                  rw [hst]; exact hse')
          rw [if_neg (by simp [hse']), if_neg (by simp [hf])]
          exact ih s
    · rw [if_neg hc]
      have hc' : exchanges.contains order.exchange = false := by
        revert hc; cases exchanges.contains order.exchange <;> simp
      have hf : executedHere exchanges statusOf (oid, order) = false :=
        executedHere_eq_false_of_contains (p := (oid, order)) hc'
      rw [if_neg (by simp [hf])]
      exact ih s

theorem monitorPass_preserves (exchanges : List String)
    (statusOf : Nat → Option String) :
    ∀ (items : List (Nat × ExecOrder)) (s : EngineState) (id : Nat),
    (∀ p ∈ items, p.1 = id → executedHere exchanges statusOf p = false) →
    dictLookup (monitorPass exchanges statusOf items s).1.executing_orders id
      = dictLookup s.executing_orders id
    ∧ get_order_by_id id (monitorPass exchanges statusOf items s).1.repo
      = get_order_by_id id s.repo := by
  intro items
  induction items with
  | nil => intro s id _; exact ⟨rfl, rfl⟩
  | cons p rest ih =>
    intro s id hno
    obtain ⟨oid, order⟩ := p
    have hno_rest : ∀ q ∈ rest, q.1 = id →
        executedHere exchanges statusOf q = false :=
      fun q hq => hno q (List.mem_cons_of_mem _ hq)
    simp only [monitorPass]
    by_cases hc : exchanges.contains order.exchange = true
    · rw [if_pos hc]
      cases hst : statusOf oid with
      | none => exact ih s id hno_rest
      | some st =>
        dsimp only
        by_cases hse : (st == "executed") = true
        · rw [if_pos hse]
          have hoid : oid ≠ id := by
            intro hh
            have hfalse := hno (oid, order) (List.mem_cons_self _ _) hh
            have ht : executedHere exchanges statusOf (oid, order) = true := by
              simp only [executedHere]
              rw [show statusOf (oid, order).1 = some st from hst]
              rw [show ((some st : Option String) == some "executed")
                = (st == "executed") from rfl, hse, hc]
              rfl
            rw [ht] at hfalse
            exact absurd hfalse (by simp)
          have hrec := ih { s with
              repo := update_order_status oid "executed" s.repo,
              executing_orders := dictInsert s.executing_orders oid
                { order with order_status := "executed" },
              events := s.events ++ [("OrderExecuted", oid, "executed")] }
            id hno_rest
          refine ⟨?_, ?_⟩
          · rw [hrec.1]
            exact dictLookup_dictInsert_ne (fun hh => hoid hh.symm) _
          · rw [hrec.2]
            exact get_order_by_id_update_ne _ (fun hh => hoid hh.symm) _
        · rw [if_neg hse]
          exact ih s id hno_rest
    · rw [if_neg hc]
      exact ih s id hno_rest

theorem monitorPass_keys (exchanges : List String)
    (statusOf : Nat → Option String) :
    ∀ (items : List (Nat × ExecOrder)) (s : EngineState),
    (∀ p ∈ items, p.1 ∈ s.executing_orders.map Prod.fst) →
    (monitorPass exchanges statusOf items s).1.executing_orders.map Prod.fst
      = s.executing_orders.map Prod.fst := by
  intro items
  induction items with
  | nil => intro s _; rfl
  | cons p rest ih =>
    intro s hsub
    obtain ⟨oid, order⟩ := p
    have hsub_rest : ∀ q ∈ rest, q.1 ∈ s.executing_orders.map Prod.fst :=
      fun q hq => hsub q (List.mem_cons_of_mem _ hq)
    simp only [monitorPass]
    by_cases hc : exchanges.contains order.exchange = true
    · rw [if_pos hc]
      cases hst : statusOf oid with
      | none => exact ih s hsub_rest
      | some st =>
        dsimp only
        by_cases hse : (st == "executed") = true
        · rw [if_pos hse]
          have hins : (dictInsert s.executing_orders oid
                { order with order_status := "executed" }).map Prod.fst
              = s.executing_orders.map Prod.fst :=
            dictInsert_keys_of_mem (hsub (oid, order) (List.mem_cons_self _ _))
          have hrec := ih ({ s with
              repo := update_order_status oid "executed" s.repo,
              executing_orders := dictInsert s.executing_orders oid
                { order with order_status := "executed" },
              events := s.events ++ [("OrderExecuted", oid, "executed")] })
            (by intro q hq; simpa [hins] using hsub_rest q hq)
          rw [hrec]
          exact hins
        · rw [if_neg hse]
          exact ih s hsub_rest
    · rw [if_neg hc]
      exact ih s hsub_rest

theorem monitorStep_keeps (exchanges : List String)
    (statusOf : Nat → Option String) (s : EngineState) (id : Nat)
    (order : ExecOrder)
    (hmem : dictLookup s.executing_orders id = some order)
    (hN : (s.executing_orders.map Prod.fst).Nodup)
    (hno : executedHere exchanges statusOf (id, order) = false) :
    dictLookup (monitorStep exchanges statusOf s).executing_orders id
      = some order
    ∧ get_order_by_id id (monitorStep exchanges statusOf s).repo
      = get_order_by_id id s.repo
    ∧ ((monitorStep exchanges statusOf s).executing_orders.map
        Prod.fst).Nodup := by
  have hno' : ∀ p ∈ s.executing_orders, p.1 = id →
      executedHere exchanges statusOf p = false := by
    intro p hp hp1
    obtain ⟨pa, pb⟩ := p
    have hl := dictLookup_of_mem_nodup hN hp
    simp only at hp1
    rw [hp1, hmem] at hl
    have hp2 : pb = order := by simpa using hl.symm
    rw [hp1, hp2]
    exact hno
  have hP2 := monitorPass_preserves exchanges statusOf s.executing_orders s
    id hno'
  have hP1 := monitorPass_executed exchanges statusOf s.executing_orders s
  have hP3 := monitorPass_keys exchanges statusOf s.executing_orders s
    (fun p hp => List.mem_map_of_mem Prod.fst hp)
  have hid_not :
      id ∉ (monitorPass exchanges statusOf s.executing_orders s).2 := by
    rw [hP1]
    intro hmem'
    obtain ⟨p, hpf, hpe⟩ := List.mem_map.mp hmem'
    have hpmem := List.mem_of_mem_filter hpf
    have hptrue := List.of_mem_filter hpf
    rw [hno' p hpmem hpe] at hptrue
    exact absurd hptrue (by simp)
  refine ⟨?_, ?_, ?_⟩
  · simp only [monitorStep]
    rw [popAll_lookup_not_mem _ _ hid_not, hP2.1]
    exact hmem
  · simp only [monitorStep]
    exact hP2.2
  · simp only [monitorStep]
    apply List.Nodup.sublist (popAll_keys_sublist _ _)
    rw [hP3]
    exact hN

theorem monitorStep_removed_iff (exchanges : List String)
    (statusOf : Nat → Option String) (s : EngineState) (id : Nat)
    (order : ExecOrder)
    (hmem : dictLookup s.executing_orders id = some order)
    (hN : (s.executing_orders.map Prod.fst).Nodup) :
    dictLookup (monitorStep exchanges statusOf s).executing_orders id = none
      ↔ executedHere exchanges statusOf (id, order) = true := by
  constructor
  · intro hnone
    by_cases he : executedHere exchanges statusOf (id, order) = true
    · exact he
    · have hf : executedHere exchanges statusOf (id, order) = false := by
        revert he; cases executedHere exchanges statusOf (id, order) <;> simp
      have hk := (monitorStep_keeps exchanges statusOf s id order hmem hN hf).1
      rw [hnone] at hk
      exact absurd hk (by simp)
  · intro he
    have hpmem : (id, order) ∈ s.executing_orders := dictLookup_mem hmem
    have hin :
        id ∈ (monitorPass exchanges statusOf s.executing_orders s).2 := by
      rw [monitorPass_executed]
      exact List.mem_map_of_mem Prod.fst (List.mem_filter.mpr ⟨hpmem, he⟩)
    simp only [monitorStep]
    exact popAll_lookup_mem _ _ hin

theorem monitorIters_keeps (exchanges : List String) :
    ∀ (n : Nat) (statusAt : Nat → Nat → Option String) (s : EngineState)
      (id : Nat) (order : ExecOrder),
    dictLookup s.executing_orders id = some order →
    (s.executing_orders.map Prod.fst).Nodup →
    (∀ k, k < n → executedHere exchanges (statusAt k) (id, order) = false) →
    dictLookup (monitorIters exchanges statusAt n s).executing_orders id
      = some order
    ∧ get_order_by_id id (monitorIters exchanges statusAt n s).repo
      = get_order_by_id id s.repo := by
  intro n
  induction n with
  | zero => intro statusAt s id order h1 _ _; exact ⟨h1, rfl⟩
  | succ n ih =>
    intro statusAt s id order h1 h2 h3
    simp only [monitorIters]
    have hstep := monitorStep_keeps exchanges (statusAt 0) s id order h1 h2
      (h3 0 (Nat.succ_pos n))
    have hrec := ih (fun k => statusAt (k + 1)) _ id order hstep.1 hstep.2.2
      (fun k hk => h3 (k + 1) (Nat.succ_lt_succ hk))
    exact ⟨hrec.1, hrec.2.trans hstep.2.1⟩

/-- C10: in the monitor loop the only path that removes an order id from
the monitored dict is the gateway reporting executed: one iteration drops a
monitored id iff its exchange key is configured and check_order_status
returned executed; and if on every iteration the gateway reports canceled
(or the exchange key is absent from the engine's map), the order stays in
the monitored dict with the same entry after any number of iterations and
its repository row is never transitioned to any status, terminal or
otherwise. -/
theorem c10_monitor_removes_only_on_executed
    (exchanges : List String) (statusOf : Nat → Option String)
    (statusAt : Nat → Nat → Option String) (s : EngineState)
    (id : Nat) (order : ExecOrder) (n : Nat)
    (hmem : dictLookup s.executing_orders id = some order)
    (hN : (s.executing_orders.map Prod.fst).Nodup) :
    (dictLookup (monitorStep exchanges statusOf s).executing_orders id = none
      ↔ executedHere exchanges statusOf (id, order) = true)
    ∧ ((∀ k, statusAt k id = some "canceled"
          ∨ exchanges.contains order.exchange = false) →
      dictLookup (monitorIters exchanges statusAt n s).executing_orders id
        = some order
      ∧ get_order_by_id id (monitorIters exchanges statusAt n s).repo
        = get_order_by_id id s.repo) := by
  refine ⟨monitorStep_removed_iff exchanges statusOf s id order hmem hN, ?_⟩
  intro hcanc
  apply monitorIters_keeps exchanges n statusAt s id order hmem hN
  intro k _
  rcases hcanc k with h | h
  · exact executedHere_eq_false_of_status (p := (id, order))
      (by show (statusAt k id == some "executed") = false; rw [h]; rfl)
  · exact executedHere_eq_false_of_contains (p := (id, order)) h

/-- Witness for C10: order 7 monitored on bybit; a gateway persistently
reporting canceled never gets it removed — after one step it would be
removed only had the report been executed, and after three iterations it is
still monitored with its repository row unchanged. -/
theorem c10_monitor_removes_only_on_executed_witness :
    (dictLookup (monitorStep ["bybit"] (fun _ => some "canceled")
        c10State).executing_orders 7 = none
      ↔ executedHere ["bybit"] (fun _ => some "canceled") (7, c10Order) = true)
    ∧ (dictLookup (monitorIters ["bybit"] (fun _ _ => some "canceled") 3
        c10State).executing_orders 7 = some c10Order
      ∧ get_order_by_id 7 (monitorIters ["bybit"] (fun _ _ => some "canceled")
          3 c10State).repo = get_order_by_id 7 c10State.repo) := by
  have h := c10_monitor_removes_only_on_executed ["bybit"]
    (fun _ => some "canceled") (fun _ _ => some "canceled") c10State 7
    c10Order 3 (by decide) (by decide)
  exact ⟨h.1, h.2 (fun k => Or.inl rfl)⟩

end Exec
